import Mathlib

/-!
Verification development for the student-portfolio web application
(`src/app.py`).  The file embeds, as executable Lean definitions, the
parts of the program the specification talks about: the certification
JSON codec (`json.dumps` / `json.loads` restricted to the shape the
application writes: a JSON array of objects with the string fields
`name`, `issuer`, `date`), the profile update handler, the project
routes with their ownership checks, the login handler, the upload
gatekeeper (`allowed_file` / `save_picture`), and the PDF document
assembler.  Theorems about the claims follow the definitions.
-/

/-- A certification record: the three string fields the app stores per row. -/
structure Cert where
  name : String
  issuer : String
  date : String
deriving DecidableEq, Repr

/-! ## JSON string escaping, as performed by json.dumps (ensure_ascii=True) -/

/-- Lowercase hexadecimal digit character for a value below 16. -/
def hexDigitCh (n : Nat) : Char :=
  if n < 10 then Char.ofNat (48 + n) else Char.ofNat (87 + n)

/-- Four lowercase hex digits of a value below 0x10000, most significant first. -/
def hex4 (n : Nat) : List Char :=
  [hexDigitCh (n / 4096 % 16), hexDigitCh (n / 256 % 16), hexDigitCh (n / 16 % 16), hexDigitCh (n % 16)]

/-- Escape a single character the way `json.dumps` with `ensure_ascii=True`
does (CPython `py_encode_basestring_ascii`): backslash and quote get a
backslash escape, the five named control characters get their shorthand,
every other character outside `0x20..0x7e` becomes a `\uXXXX` escape
(a surrogate pair for codepoints at or above 0x10000), and the remaining
printable ASCII characters stand for themselves. -/
def escChar (c : Char) : List Char :=
  if c = '\x5c' then ['\x5c', '\x5c']
  else if c = '\x22' then ['\x5c', '\x22']
  else if c = '\x08' then ['\x5c', 'b']
  else if c = '\x09' then ['\x5c', 't']
  else if c = '\x0a' then ['\x5c', 'n']
  else if c = '\x0c' then ['\x5c', 'f']
  else if c = '\x0d' then ['\x5c', 'r']
  else if c.toNat < 0x20 ∨ 0x7e < c.toNat then
    if c.toNat < 0x10000 then
      '\x5c' :: 'u' :: hex4 c.toNat
    else
      ('\x5c' :: 'u' :: hex4 (0xd800 + (c.toNat - 0x10000) / 0x400)) ++
      ('\x5c' :: 'u' :: hex4 (0xdc00 + (c.toNat - 0x10000) % 0x400))
  else [c]

/-- Escape every character of a string body. -/
def escString : List Char → List Char
  | [] => []
  | c :: cs => escChar c ++ escString cs

/-- A JSON string literal: quote, escaped body, quote. -/
def encStr (s : String) : List Char :=
  '\x22' :: escString s.data ++ ['\x22']

/-- Literal characters `json.dumps` emits before the `name` value:
opening brace, quoted key, colon, space. -/
def keyNameLit : List Char :=
  ['\x7b', '\x22', 'n', 'a', 'm', 'e', '\x22', ':', ' ']

/-- Literal characters before the `issuer` value: item separator, quoted key, colon, space. -/
def keyIssuerLit : List Char :=
  [',', ' ', '\x22', 'i', 's', 's', 'u', 'e', 'r', '\x22', ':', ' ']

/-- Literal characters before the `date` value: item separator, quoted key, colon, space. -/
def keyDateLit : List Char :=
  [',', ' ', '\x22', 'd', 'a', 't', 'e', '\x22', ':', ' ']

/-- One certification object exactly as `json.dumps` prints the dict
`{'name': n, 'issuer': i, 'date': d}` (insertion order of keys, default
separators `", "` and `": "`). -/
def encodeCert (c : Cert) : List Char :=
  keyNameLit ++ encStr c.name ++ keyIssuerLit ++ encStr c.issuer ++ keyDateLit ++ encStr c.date ++ ['\x7d']

/-- The comma-separated object list inside the array brackets. -/
def encodeCertsAux : List Cert → List Char
  | [] => []
  | [c] => encodeCert c
  | c :: cs => encodeCert c ++ ',' :: ' ' :: encodeCertsAux cs

/-- `json.dumps` of a list of certification dicts. -/
def encodeCerts (L : List Cert) : String :=
  String.mk ('[' :: encodeCertsAux L ++ [']'])

/-! ## JSON parsing (json.loads) on the sublanguage the app writes

`json.loads` is modelled on the canonical encodings produced above: a
JSON array of three-key string objects.  Any other input is treated as a
parse failure, which the caller maps to the same fail-safe empty list the
`except` branch of the property produces.  String unescaping follows
CPython `py_scanstring` in strict mode, including surrogate-pair
recombination (lone surrogate escapes, which Lean strings cannot
represent, count as failures). -/

/-- Value of one hexadecimal digit character, if any. -/
def hexVal (c : Char) : Option Nat :=
  if '0' ≤ c ∧ c ≤ '9' then some (c.toNat - 48)
  else if 'a' ≤ c ∧ c ≤ 'f' then some (c.toNat - 87)
  else if 'A' ≤ c ∧ c ≤ 'F' then some (c.toNat - 55)
  else none

/-- Read four hexadecimal digits, returning their value and the rest. -/
def parseHex4 : List Char → Option (Nat × List Char)
  | a :: b :: c :: d :: rest =>
    match hexVal a, hexVal b, hexVal c, hexVal d with
    | some va, some vb, some vc, some vd => some (((va * 16 + vb) * 16 + vc) * 16 + vd, rest)
    | _, _, _, _ => none
  | _ => none

/-- Continuation after a high-surrogate `\uXXXX` escape of value `n`: a
low-surrogate escape must follow, and the pair is recombined. -/
def parseEscUHigh (n : Nat) : List Char → Option (Char × List Char)
  | '\x5c' :: 'u' :: r3 =>
    match parseHex4 r3 with
    | none => none
    | some (m, r4) =>
      if 0xdc00 ≤ m ∧ m ≤ 0xdfff then
        some (Char.ofNat (0x10000 + (n - 0xd800) * 0x400 + (m - 0xdc00)), r4)
      else none
  | _ => none

/-- Continuation of a `\uXXXX` escape whose digits evaluate to `n`: a
high surrogate must be followed by a low-surrogate escape and the pair
is recombined, a lone low surrogate is a failure (Lean strings cannot
hold it), and every other value denotes its own codepoint. -/
def parseEscU (n : Nat) (r2 : List Char) : Option (Char × List Char) :=
  if 0xd800 ≤ n ∧ n ≤ 0xdbff then parseEscUHigh n r2
  else if 0xdc00 ≤ n ∧ n ≤ 0xdfff then none
  else some (Char.ofNat n, r2)

/-- Decode one escape sequence (the characters after a backslash),
returning the denoted character and the remaining input. -/
def parseEsc : List Char → Option (Char × List Char)
  | '\x22' :: r => some ('\x22', r)
  | '\x5c' :: r => some ('\x5c', r)
  | '/' :: r => some ('/', r)
  | 'b' :: r => some ('\x08', r)
  | 'f' :: r => some ('\x0c', r)
  | 'n' :: r => some ('\x0a', r)
  | 'r' :: r => some ('\x0d', r)
  | 't' :: r => some ('\x09', r)
  | 'u' :: r =>
    match parseHex4 r with
    | none => none
    | some (n, r2) => parseEscU n r2
  | _ => none

/-- Parse a string body up to the closing quote.  Fuel-indexed primitive
recursion; one unit of fuel is spent per decoded character, so any fuel
larger than the remaining input length is sufficient.  Unescaped control
characters are rejected (strict mode). -/
def parseStrBody : Nat → List Char → Option (List Char × List Char)
  | 0, _ => none
  | _ + 1, [] => none
  | fuel + 1, c :: rest =>
    if c = '\x22' then some ([], rest)
    else if c = '\x5c' then
      match parseEsc rest with
      | none => none
      | some (d, r2) =>
        match parseStrBody fuel r2 with
        | none => none
        | some (s, r3) => some (d :: s, r3)
    else if c.toNat < 0x20 then none
    else
      match parseStrBody fuel rest with
      | none => none
      | some (s, r3) => some (c :: s, r3)

/-- Parse a JSON string literal (opening quote, body, closing quote). -/
def parseJStr : List Char → Option (List Char × List Char)
  | '\x22' :: rest => parseStrBody (rest.length + 1) rest
  | _ => none

/-- Expect an exact literal character sequence. -/
def parseLit : List Char → List Char → Option (List Char)
  | [], l => some l
  | _ :: _, [] => none
  | c :: cs, d :: l => if c = d then parseLit cs l else none

/-- Parse one certification object in canonical form. -/
def parseCert (l : List Char) : Option (Cert × List Char) :=
  match parseLit keyNameLit l with
  | none => none
  | some l1 =>
    match parseJStr l1 with
    | none => none
    | some (n, l2) =>
      match parseLit keyIssuerLit l2 with
      | none => none
      | some l3 =>
        match parseJStr l3 with
        | none => none
        | some (i, l4) =>
          match parseLit keyDateLit l4 with
          | none => none
          | some l5 =>
            match parseJStr l5 with
            | none => none
            | some (d, l6) =>
              match l6 with
              | '\x7d' :: r => some (⟨String.mk n, String.mk i, String.mk d⟩, r)
              | _ => none

/-- Parse the non-empty object list of an array, consuming the closing
bracket.  Fuel-indexed; one unit of fuel per object. -/
def parseCertsLoop : Nat → List Char → Option (List Cert × List Char)
  | 0, _ => none
  | fuel + 1, l =>
    match parseCert l with
    | none => none
    | some (c, r) =>
      match r with
      | ']' :: r2 => some ([c], r2)
      | ',' :: ' ' :: r2 =>
        match parseCertsLoop fuel r2 with
        | none => none
        | some (cs, r3) => some (c :: cs, r3)
      | _ => none

/-- `json.loads` on the canonical certification-list encoding; `none`
models the decode error the caller catches. -/
def decodeCerts (s : String) : Option (List Cert) :=
  match s.data with
  | '[' :: ']' :: r => if r.isEmpty then some [] else none
  | '[' :: r =>
    match parseCertsLoop (r.length + 1) r with
    | none => none
    | some (cs, r2) => if r2.isEmpty then some cs else none
  | _ => none

/-! ## The certifications property (getter/setter on User) -/

/-- The `User.certifications` property getter: a falsy (`None` or empty)
raw column yields `[]`, a decode error is caught and yields `[]`,
otherwise the decoded list is returned. -/
def certificationsGet (certifications_data : Option String) : List Cert :=
  match certifications_data with
  | none => []
  | some raw =>
    if raw = "" then []
    else
      match decodeCerts raw with
      | some l => l
      | none => []

/-- The `User.certifications` property setter: stores `json.dumps` of the list. -/
def certificationsSet (value : List Cert) : String :=
  encodeCerts value

example : certificationsGet (some (certificationsSet [])) = [] := by decide
example : certificationsGet (some (certificationsSet [⟨"AWS CCP", "Amazon", "2024"⟩])) =
    [⟨"AWS CCP", "Amazon", "2024"⟩] := by decide
example : encodeCerts [⟨"a", "b", "c"⟩] =
    "[\x7b\x22name\x22: \x22a\x22, \x22issuer\x22: \x22b\x22, \x22date\x22: \x22c\x22\x7d]" := by decide
example : certificationsGet (some "not json") = [] := by decide

example : certificationsGet (some (certificationsSet [⟨"a\x22b\x5cc\n\t", "é", "naïve ünïcode"⟩])) =
    [⟨"a\x22b\x5cc\n\t", "é", "naïve ünïcode"⟩] := by decide
example : certificationsGet (some (certificationsSet [⟨"𝄞 clef", "", "\x00\x01\x1f"⟩])) =
    [⟨"𝄞 clef", "", "\x00\x01\x1f"⟩] := by decide
example : escString "é".data = ['\x5c', 'u', '0', '0', 'e', '9'] := by decide
example : escString "𝄞".data = ['\x5c','u','d','8','3','4','\x5c','u','d','d','1','e'] := by decide

/-! ## Upload gatekeeper: allowed_file and save_picture -/

/-- The fixed allow-set of image extensions (`ALLOWED_EXTENSIONS`). -/
def ALLOWED_EXTENSIONS : List String :=
  ["png", "jpg", "jpeg", "gif"]

/-- ASCII lowercasing of a string, modelling `str.lower` on the
extension candidates compared against the ASCII allow-set. -/
def lowerString (s : String) : String :=
  String.mk (s.data.map Char.toLower)

/-- The characters after the last dot: `filename.rsplit('.', 1)[1]`
when a dot is present. -/
def afterLastDot (l : List Char) : List Char :=
  ((l.reverse.takeWhile (fun c => c ≠ '.')).reverse)

/-- `allowed_file(filename)`: the filename contains a dot and the
lowercased substring after the last dot is in the allow-set. -/
def allowed_file (filename : String) : Bool :=
  filename.data.contains '.' &&
    ALLOWED_EXTENSIONS.contains (lowerString (String.mk (afterLastDot filename.data)))

/-- Index of the last occurrence of a character, if any. -/
def rfindIdx (c : Char) : List Char → Option Nat
  | [] => none
  | a :: as =>
    match rfindIdx c as with
    | some i => some (i + 1)
    | none => if a = c then some 0 else none

/-- Index right after the last path separator (0 when there is none):
where `os.path.splitext` starts scanning for a non-dot character. -/
def extSearchStart (l : List Char) : Nat :=
  match rfindIdx '/' l with
  | some s => s + 1
  | none => 0

/-- `os.path.splitext` (posixpath): split off the extension at the last
dot, provided that dot lies after the last path separator and some
character between the separator and the dot is not itself a dot
(so dotfile-style names such as `.jpg` have no extension). -/
def splitext (p : String) : String × String :=
  match rfindIdx '.' p.data with
  | none => (p, "")
  | some d =>
    if d < extSearchStart p.data then (p, "")
    else if (List.range d).any (fun j =>
        decide (extSearchStart p.data ≤ j) && decide (p.data.getD j '.' ≠ '.')) then
      (String.mk (p.data.take d), String.mk (p.data.drop d))
    else (p, "")

/-- Whether `os.path.splitext` finds a proper stem, i.e. some character
after the last path separator and before the last dot is not a dot; the
extension split off is non-empty exactly in this case. -/
def hasStem (p : String) : Bool :=
  match rfindIdx '.' p.data with
  | none => false
  | some d =>
    (List.range d).any (fun j =>
      decide (extSearchStart p.data ≤ j) && decide (p.data.getD j '.' ≠ '.'))

/-- `save_picture`: the stored filename is the random hex token
(`secrets.token_hex(8)`, passed in as `random_hex`) with the
`os.path.splitext` extension of the original name appended. -/
def save_picture (random_hex : String) (filename : String) : String :=
  random_hex ++ (splitext filename).2

example : allowed_file "photo.JPG" = true := by decide
example : allowed_file "malware.exe" = false := by decide
example : allowed_file "noext" = false := by decide
example : allowed_file ".jpg" = true := by decide
example : save_picture "0123456789abcdef" "photo.JPG" = "0123456789abcdef.JPG" := by decide
example : save_picture "0123456789abcdef" ".jpg" = "0123456789abcdef" := by decide
example : splitext "a..jpg" = ("a.", ".jpg") := by decide
example : splitext "dir/.jpg" = ("dir/.jpg", "") := by decide

/-! ## Data records and route handlers -/

/-- A row of the `Project` table. -/
structure ProjectRec where
  id : Nat
  title : String
  description : String
  image_file : Option String
  user_id : Nat
deriving DecidableEq, Repr

/-- A row of the `User` table.  `username` and the display fields are
`Option String` because the profile handler may assign them `None`;
`email` and `password` are set at registration and never absent. -/
structure UserRec where
  id : Nat
  username : Option String
  email : String
  password : String
  tagline : Option String
  bio : Option String
  course : Option String
  faction : Option String
  avatar_url : Option String
  status : Option String
  skills : Option String
  public_email : Option String
  linkedin : Option String
  github : Option String
  certifications_data : Option String
deriving DecidableEq, Repr

/-- Outcome reported by a project mutation route. -/
inductive Outcome
  | notFound
  | accessDenied
  | ok
deriving DecidableEq, Repr

/-- Result of a login attempt: a session for the user, or a flashed message. -/
inductive LoginResult
  | success (userId : Nat)
  | failure (message : String)
deriving DecidableEq, Repr

/-- `User.query.filter_by(email=email).first()`. -/
def findByEmail (db : List UserRec) (email : String) : Option UserRec :=
  db.find? (fun u => u.email == email)

/-- `Project.query.get(id)` (the lookup behind `get_or_404`). -/
def findProject (db : List ProjectRec) (pid : Nat) : Option ProjectRec :=
  db.find? (fun p => p.id == pid)

/-- The POST branch of the `login` route.  The bcrypt check is an
abstract parameter `check_password_hash`. -/
def login (check_password_hash : String → String → Bool) (db : List UserRec)
    (email pw : String) : LoginResult :=
  match findByEmail db email with
  | some u =>
    if check_password_hash u.password pw then .success u.id
    else .failure "Invalid credentials."
  | none => .failure "Invalid credentials."

/-- The fields submitted by the profile form. -/
structure ProfileForm where
  username : Option String
  tagline : Option String
  bio : Option String
  avatar_url : Option String
  status : Option String
  course : Option String
  faction : Option String
  skills : Option String
  public_email : Option String
  linkedin : Option String
  github : Option String
  new_password : Option String
  cert_name : List String
  cert_issuer : List String
  cert_date : List String
deriving Repr

/-- The certification-row assembly loop of the `profile` route:
`for i in range(len(cert_names)): if cert_names[i].strip(): append(...)`. -/
def buildNewCerts (cert_names cert_issuers cert_dates : List String) : List Cert :=
  (List.range cert_names.length).filterMap (fun i =>
    if (cert_names.getD i "").trim ≠ "" then
      some ⟨cert_names.getD i "",
            if i < cert_issuers.length then cert_issuers.getD i "" else "",
            if i < cert_dates.length then cert_dates.getD i "" else ""⟩
    else none)

/-- The certification rows described by the specification sentence: the
records at exactly the indices whose name is non-empty after trimming,
in original order, with out-of-range issuer and date entries read as
empty strings.  Stated from the claim wording, to be compared with
`buildNewCerts`, which is translated from the code. -/
def claimCertRows (names issuers dates : List String) : List Cert :=
  ((List.range names.length).filter (fun i => (names.getD i "").trim ≠ "")).map
    (fun i => ⟨names.getD i "",
               if i < issuers.length then issuers.getD i "" else "",
               if i < dates.length then dates.getD i "" else ""⟩)

/-- The POST branch of the `profile` route: overwrite the display
fields with the form values, hash and store a new password only when a
non-empty one was supplied, and replace the stored certifications with
the encoded rebuilt list.  `generate_password_hash` abstracts bcrypt. -/
def profile_post (generate_password_hash : String → String)
    (u : UserRec) (f : ProfileForm) : UserRec :=
  let u1 := { u with
    username := f.username
    tagline := f.tagline
    bio := f.bio
    avatar_url := f.avatar_url
    status := f.status
    course := f.course
    faction := f.faction
    skills := f.skills
    public_email := f.public_email
    linkedin := f.linkedin
    github := f.github }
  let u2 :=
    match f.new_password with
    | some s => if s ≠ "" then { u1 with password := generate_password_hash s } else u1
    | none => u1
  let certsRaw := some (certificationsSet (buildNewCerts f.cert_name f.cert_issuer f.cert_date))
  { u2 with certifications_data := certsRaw }

/-- The POST branch of the `projects` route.  `fn` is the filename of the
uploaded `image` part (empty when no file was chosen), `tok` the random
hex token.  Returns the new table and the list of files written to disk. -/
def projects_post (db : List ProjectRec) (nextId actorId : Nat)
    (title desc : String) (fn : String) (tok : String) :
    List ProjectRec × List String :=
  if fn ≠ "" && allowed_file fn then
    (db ++ [⟨nextId, title, desc, some (save_picture tok fn), actorId⟩], [save_picture tok fn])
  else
    (db ++ [⟨nextId, title, desc, none, actorId⟩], [])

/-- The `edit_project` route (POST): 404 when the id is unknown, access
denied when the caller does not own the record, otherwise overwrite
title and description and, when a file with a non-empty name was
uploaded, the image reference. -/
def edit_project (db : List ProjectRec) (actorId pid : Nat)
    (newTitle newDesc : String) (file : Option String) (tok : String) :
    Outcome × List ProjectRec :=
  match findProject db pid with
  | none => (.notFound, db)
  | some p =>
    if p.user_id ≠ actorId then (.accessDenied, db)
    else
      let p2 := { p with
        title := newTitle
        description := newDesc
        image_file :=
          match file with
          | some fn => if fn ≠ "" then some (save_picture tok fn) else p.image_file
          | none => p.image_file }
      (.ok, db.map (fun q => if q.id == pid then p2 else q))

/-- The `delete_project` route: 404 when the id is unknown, access denied
when the caller does not own the record, otherwise remove the row. -/
def delete_project (db : List ProjectRec) (actorId pid : Nat) :
    Outcome × List ProjectRec :=
  match findProject db pid with
  | none => (.notFound, db)
  | some p =>
    if p.user_id ≠ actorId then (.accessDenied, db)
    else (.ok, db.filter (fun q => q.id != pid))

/-! ## PDF document assembler (download_portfolio) -/

/-- A printable block handed to the rendering library: a styled
paragraph or a spacer. -/
inductive Block
  | paragraph (text : String) (style : String)
  | spacer (w h : Nat)
deriving DecidableEq, Repr

/-- Python truthiness of an optional string column. -/
def truthyOpt (s : Option String) : Bool :=
  match s with
  | none => false
  | some v => v ≠ ""

/-- The f-string rendering of an optional column (`None` prints as "None"). -/
def showOpt (s : Option String) : String :=
  match s with
  | none => "None"
  | some v => v

/-- The paragraph text built for one certification:
`f"<b>{c_name}</b> - {c_issuer} ({c_date})"`. -/
def certLine (c : Cert) : String :=
  "<b>" ++ c.name ++ "</b> - " ++ c.issuer ++ " (" ++ c.date ++ ")"

/-- The certification section of the PDF: heading, one line per stored
certification, and a trailing spacer — emitted only when the list is
non-empty. -/
def certSection (certs : List Cert) : List Block :=
  if certs.isEmpty then []
  else
    Block.paragraph "Certifications" "Heading2" ::
      certs.map (fun c => Block.paragraph (certLine c) "Normal") ++ [Block.spacer 1 20]

/-- The blocks built for one project entry. -/
def projectBlocks (p : ProjectRec) : List Block :=
  Block.paragraph ("<b>" ++ p.title ++ "</b>") "Heading3" ::
    (if p.description ≠ "" then [Block.paragraph p.description "Normal"] else []) ++
    [Block.spacer 1 12]

/-- The full ordered element list assembled by `download_portfolio`. -/
def download_portfolio_elements (u : UserRec) (projects : List ProjectRec) : List Block :=
  [Block.paragraph (showOpt u.username ++ "\x27s Portfolio") "Title", Block.spacer 1 12] ++
  (if truthyOpt u.course then [Block.paragraph ("<b>Course:</b> " ++ showOpt u.course) "Normal"] else []) ++
  (if truthyOpt u.tagline then [Block.paragraph ("<i>" ++ showOpt u.tagline ++ "</i>") "Normal"] else []) ++
  (if truthyOpt u.public_email then [Block.paragraph ("<b>Email:</b> " ++ showOpt u.public_email) "Normal"] else []) ++
  [Block.spacer 1 20] ++
  certSection (certificationsGet u.certifications_data) ++
  [Block.paragraph "Projects" "Heading2"] ++
  (projects.map projectBlocks).flatten

/-! ## Round-trip lemmas for the certification codec -/

/-- Structure eta for strings. -/
theorem stringMk_data (s : String) : String.mk s.data = s := rfl

/-- Hex digits below 16 are printed and reread exactly. -/
theorem hexVal_hexDigitCh (d : Nat) (h : d < 16) : hexVal (hexDigitCh d) = some d := by
  interval_cases d <;> decide

/-- Four-digit hex blocks round-trip for values below 0x10000. -/
theorem parseHex4_hex4 (n : Nat) (h : n < 65536) (l : List Char) :
    parseHex4 (hex4 n ++ l) = some (n, l) := by
  have h1 : n / 4096 % 16 < 16 := Nat.mod_lt _ (by norm_num)
  have h2 : n / 256 % 16 < 16 := Nat.mod_lt _ (by norm_num)
  have h3 : n / 16 % 16 < 16 := Nat.mod_lt _ (by norm_num)
  have h4 : n % 16 < 16 := Nat.mod_lt _ (by norm_num)
  simp [hex4, parseHex4, hexVal_hexDigitCh _ h1, hexVal_hexDigitCh _ h2,
        hexVal_hexDigitCh _ h3, hexVal_hexDigitCh _ h4]
  omega

/-- The codepoint of a `Char` is a Unicode scalar value. -/
theorem char_valid_nat (c : Char) :
    c.toNat < 0xd800 ∨ (0xdfff < c.toNat ∧ c.toNat < 0x110000) := by
  have h := c.valid
  unfold Char.toNat
  exact h


/-- Reduction of the body parser at a closing quote. -/
theorem parseStrBody_quote (fuel : Nat) (x : List Char) :
    parseStrBody (fuel + 1) ('\x22' :: x) = some ([], x) := rfl

/-- Reduction of the body parser at a backslash. -/
theorem parseStrBody_esc (fuel : Nat) (x : List Char) :
    parseStrBody (fuel + 1) ('\x5c' :: x) =
      match parseEsc x with
      | none => none
      | some (d, r2) =>
        match parseStrBody fuel r2 with
        | none => none
        | some (s, r3) => some (d :: s, r3) := rfl

/-- Reduction of the body parser at an ordinary character. -/
theorem parseStrBody_plain (fuel : Nat) (c : Char) (x : List Char)
    (h2 : ¬c = '\x22') (h1 : ¬c = '\x5c') (hge : ¬c.toNat < 0x20) :
    parseStrBody (fuel + 1) (c :: x) =
      match parseStrBody fuel x with
      | none => none
      | some (s, r3) => some (c :: s, r3) := by
  simp only [parseStrBody]
  rw [if_neg h2, if_neg h1, if_neg hge]

/-- Reduction of the escape parser at a `u`. -/
theorem parseEsc_u (r : List Char) :
    parseEsc ('u' :: r) =
      match parseHex4 r with
      | none => none
      | some (n, r2) => parseEscU n r2 := rfl

/-- A `\uXXXX` escape of a non-surrogate BMP codepoint decodes to that codepoint. -/
theorem parseEsc_u_bmp (n : Nat) (hn : n < 65536)
    (hs1 : ¬(0xd800 ≤ n ∧ n ≤ 0xdbff)) (hs2 : ¬(0xdc00 ≤ n ∧ n ≤ 0xdfff))
    (m : List Char) :
    parseEsc ('u' :: (hex4 n ++ m)) = some (Char.ofNat n, m) := by
  rw [parseEsc_u, parseHex4_hex4 n hn m]
  dsimp only
  unfold parseEscU
  rw [if_neg hs1, if_neg hs2]

/-- A surrogate-pair escape of an astral codepoint decodes to that codepoint. -/
theorem parseEsc_u_pair (n : Nat) (hlb : 65536 ≤ n) (hub : n < 0x110000) (m : List Char) :
    parseEsc ('u' :: (hex4 (0xd800 + (n - 0x10000) / 0x400) ++
      ('\x5c' :: 'u' :: (hex4 (0xdc00 + (n - 0x10000) % 0x400) ++ m)))) =
      some (Char.ofNat n, m) := by
  have hhi : 0xd800 + (n - 0x10000) / 0x400 < 65536 := by omega
  have hlo : 0xdc00 + (n - 0x10000) % 0x400 < 65536 := by omega
  rw [parseEsc_u, parseHex4_hex4 _ hhi]
  dsimp only
  unfold parseEscU
  rw [if_pos (by omega : 0xd800 ≤ 0xd800 + (n - 0x10000) / 0x400 ∧
        0xd800 + (n - 0x10000) / 0x400 ≤ 0xdbff)]
  simp only [parseEscUHigh]
  rw [parseHex4_hex4 _ hlo]
  dsimp only
  have harith : 0x10000 + (0xd800 + (n - 0x10000) / 0x400 - 0xd800) * 0x400 +
      (0xdc00 + (n - 0x10000) % 0x400 - 0xdc00) = n := by omega
  simp only [if_pos (by omega : 0xdc00 ≤ 0xdc00 + (n - 0x10000) % 0x400 ∧
      0xdc00 + (n - 0x10000) % 0x400 ≤ 0xdfff), harith]

/-- Reductions of the escape parser at each shorthand escape. -/
theorem parseEsc_quote (m : List Char) : parseEsc ('\x22' :: m) = some ('\x22', m) := rfl

theorem parseEsc_backslash (m : List Char) : parseEsc ('\x5c' :: m) = some ('\x5c', m) := rfl

theorem parseEsc_b (m : List Char) : parseEsc ('b' :: m) = some ('\x08', m) := rfl

theorem parseEsc_t (m : List Char) : parseEsc ('t' :: m) = some ('\x09', m) := rfl

theorem parseEsc_n (m : List Char) : parseEsc ('n' :: m) = some ('\x0a', m) := rfl

theorem parseEsc_f (m : List Char) : parseEsc ('f' :: m) = some ('\x0c', m) := rfl

theorem parseEsc_r (m : List Char) : parseEsc ('r' :: m) = some ('\x0d', m) := rfl

/-- One escaped character is decoded back exactly, spending one unit of
fuel, whatever follows it. -/
theorem escChar_step (c : Char) (m : List Char) (fuel : Nat) :
    parseStrBody (fuel + 1) (escChar c ++ m) =
      Option.map (fun p => (c :: p.1, p.2)) (parseStrBody fuel m) := by
  have hv := char_valid_nat c
  unfold escChar
  split_ifs with h1 h2 h3 h4 h5 h6 h7 h8 h9
  · subst h1
    simp only [List.cons_append, List.nil_append, parseStrBody_esc, parseEsc_backslash]
    cases parseStrBody fuel m with
    | none => rfl
    | some p => cases p with | mk s r => rfl
  · subst h2
    simp only [List.cons_append, List.nil_append, parseStrBody_esc, parseEsc_quote]
    cases parseStrBody fuel m with
    | none => rfl
    | some p => cases p with | mk s r => rfl
  · subst h3
    simp only [List.cons_append, List.nil_append, parseStrBody_esc, parseEsc_b]
    cases parseStrBody fuel m with
    | none => rfl
    | some p => cases p with | mk s r => rfl
  · subst h4
    simp only [List.cons_append, List.nil_append, parseStrBody_esc, parseEsc_t]
    cases parseStrBody fuel m with
    | none => rfl
    | some p => cases p with | mk s r => rfl
  · subst h5
    simp only [List.cons_append, List.nil_append, parseStrBody_esc, parseEsc_n]
    cases parseStrBody fuel m with
    | none => rfl
    | some p => cases p with | mk s r => rfl
  · subst h6
    simp only [List.cons_append, List.nil_append, parseStrBody_esc, parseEsc_f]
    cases parseStrBody fuel m with
    | none => rfl
    | some p => cases p with | mk s r => rfl
  · subst h7
    simp only [List.cons_append, List.nil_append, parseStrBody_esc, parseEsc_r]
    cases parseStrBody fuel m with
    | none => rfl
    | some p => cases p with | mk s r => rfl
  · have hs1 : ¬(0xd800 ≤ c.toNat ∧ c.toNat ≤ 0xdbff) := by omega
    have hs2 : ¬(0xdc00 ≤ c.toNat ∧ c.toNat ≤ 0xdfff) := by omega
    simp only [List.cons_append, parseStrBody_esc, parseEsc_u_bmp c.toNat h9 hs1 hs2 m,
      Char.ofNat_toNat]
    cases parseStrBody fuel m with
    | none => rfl
    | some p => cases p with | mk s r => rfl
  · have hlb : 65536 ≤ c.toNat := by omega
    have hub : c.toNat < 0x110000 := by omega
    have hnorm : (('\x5c' :: 'u' :: hex4 (0xd800 + (c.toNat - 0x10000) / 0x400)) ++
        ('\x5c' :: 'u' :: hex4 (0xdc00 + (c.toNat - 0x10000) % 0x400))) ++ m =
        '\x5c' :: 'u' :: (hex4 (0xd800 + (c.toNat - 0x10000) / 0x400) ++
        ('\x5c' :: 'u' :: (hex4 (0xdc00 + (c.toNat - 0x10000) % 0x400) ++ m))) := by
      simp only [List.cons_append, List.append_assoc]
    rw [hnorm, parseStrBody_esc, parseEsc_u_pair c.toNat hlb hub m]
    dsimp only
    rw [Char.ofNat_toNat]
    cases parseStrBody fuel m with
    | none => rfl
    | some p => cases p with | mk s r => rfl
  · have hge : ¬c.toNat < 0x20 := by omega
    simp only [List.singleton_append]
    rw [parseStrBody_plain fuel c m h2 h1 hge]
    cases parseStrBody fuel m with
    | none => rfl
    | some p => cases p with | mk s r => rfl

/-- Escaping a character never produces the empty sequence. -/
theorem escChar_length (c : Char) : 1 ≤ (escChar c).length := by
  unfold escChar
  split_ifs <;> simp [hex4]

/-- Escaping a string body does not shorten it. -/
theorem escString_length (s : List Char) : s.length ≤ (escString s).length := by
  induction s with
  | nil => simp [escString]
  | cons c cs ih =>
    have := escChar_length c
    simp only [escString, List.length_append, List.length_cons]
    omega

/-- An escaped body followed by a closing quote parses back to the body,
for any sufficient fuel. -/
theorem parseStrBody_round (s : List Char) :
    ∀ (fuel : Nat) (rest : List Char), s.length < fuel →
      parseStrBody fuel (escString s ++ '\x22' :: rest) = some (s, rest) := by
  induction s with
  | nil =>
    intro fuel rest h
    cases fuel with
    | zero => simp at h
    | succ f => simp only [escString, List.nil_append]; exact parseStrBody_quote f rest
  | cons c cs ih =>
    intro fuel rest h
    cases fuel with
    | zero => simp at h
    | succ f =>
      have hassoc : escString (c :: cs) ++ '\x22' :: rest =
          escChar c ++ (escString cs ++ '\x22' :: rest) := by
        simp [escString, List.append_assoc]
      rw [hassoc, escChar_step, ih f rest (by simp at h; omega)]
      rfl

/-- A JSON string literal round-trips through the string parser. -/
theorem parseJStr_round (s : String) (rest : List Char) :
    parseJStr (encStr s ++ rest) = some (s.data, rest) := by
  have hshape : encStr s ++ rest = '\x22' :: (escString s.data ++ '\x22' :: rest) := by
    simp [encStr, List.append_assoc]
  rw [hshape]
  have hfuel : s.data.length < (escString s.data ++ '\x22' :: rest).length + 1 := by
    have := escString_length s.data
    simp only [List.length_append, List.length_cons]
    omega
  show parseStrBody ((escString s.data ++ '\x22' :: rest).length + 1)
      (escString s.data ++ '\x22' :: rest) = some (s.data, rest)
  exact parseStrBody_round s.data _ rest hfuel

/-- A literal prefix is consumed exactly. -/
theorem parseLit_self (k : List Char) (l : List Char) :
    parseLit k (k ++ l) = some l := by
  induction k with
  | nil => rfl
  | cons c cs ih => simp [parseLit, ih]

/-- One encoded certification object parses back to the record. -/
theorem parseCert_round (c : Cert) (rest : List Char) :
    parseCert (encodeCert c ++ rest) = some (c, rest) := by
  have hshape : encodeCert c ++ rest =
      keyNameLit ++ (encStr c.name ++ (keyIssuerLit ++ (encStr c.issuer ++
        (keyDateLit ++ (encStr c.date ++ ('\x7d' :: rest)))))) := by
    simp [encodeCert, List.append_assoc]
  rw [hshape]
  unfold parseCert
  rw [parseLit_self]
  dsimp only
  rw [parseJStr_round]
  dsimp only
  rw [parseLit_self]
  dsimp only
  rw [parseJStr_round]
  dsimp only
  rw [parseLit_self]
  dsimp only
  rw [parseJStr_round]
  dsimp only
  rw [stringMk_data, stringMk_data, stringMk_data]
  rfl

/-- An encoded object is at least one character long. -/
theorem encodeCert_length (c : Cert) : 1 ≤ (encodeCert c).length := by
  simp [encodeCert, keyNameLit]

/-- The encoded object list is at least as long as the record list. -/
theorem encodeCertsAux_length (L : List Cert) : L.length ≤ (encodeCertsAux L).length := by
  induction L with
  | nil => simp [encodeCertsAux]
  | cons c cs ih =>
    cases cs with
    | nil =>
      have := encodeCert_length c
      simp [encodeCertsAux]
      omega
    | cons c2 cs2 =>
      have := encodeCert_length c
      simp only [encodeCertsAux, List.length_append, List.length_cons] at *
      omega

/-- An encoded object starts with an opening brace. -/
theorem encodeCert_head (c : Cert) :
    encodeCert c = '\x7b' :: (['\x22', 'n', 'a', 'm', 'e', '\x22', ':', ' '] ++
      (encStr c.name ++ (keyIssuerLit ++ (encStr c.issuer ++
        (keyDateLit ++ (encStr c.date ++ ['\x7d'])))))) := by
  simp [encodeCert, keyNameLit, List.append_assoc]

/-- A non-empty encoded object list starts with an opening brace. -/
theorem encodeCertsAux_cons (c : Cert) (cs : List Cert) :
    ∃ t, encodeCertsAux (c :: cs) = '\x7b' :: t := by
  cases cs with
  | nil =>
    exact ⟨_, by rw [show encodeCertsAux [c] = encodeCert c from rfl]; exact encodeCert_head c⟩
  | cons c2 cs2 =>
    refine ⟨(['\x22', 'n', 'a', 'm', 'e', '\x22', ':', ' '] ++
      (encStr c.name ++ (keyIssuerLit ++ (encStr c.issuer ++
        (keyDateLit ++ (encStr c.date ++ ['\x7d'])))))) ++
      ',' :: ' ' :: encodeCertsAux (c2 :: cs2), ?_⟩
    rw [show encodeCertsAux (c :: c2 :: cs2) =
        encodeCert c ++ ',' :: ' ' :: encodeCertsAux (c2 :: cs2) from rfl,
      encodeCert_head, List.cons_append]

/-- The encoded object list followed by the closing bracket parses back
to the records, for any sufficient fuel. -/
theorem parseCertsLoop_round (cs : List Cert) :
    ∀ (c : Cert) (fuel : Nat) (rest : List Char), cs.length + 1 < fuel →
      parseCertsLoop fuel (encodeCertsAux (c :: cs) ++ ']' :: rest) = some (c :: cs, rest) := by
  induction cs with
  | nil =>
    intro c fuel rest h
    cases fuel with
    | zero => simp at h
    | succ f =>
      show parseCertsLoop (f + 1) (encodeCert c ++ ']' :: rest) = some ([c], rest)
      unfold parseCertsLoop
      rw [parseCert_round]
      rfl
  | cons c2 cs2 ih =>
    intro c fuel rest h
    cases fuel with
    | zero => simp at h
    | succ f =>
      have hshape : encodeCertsAux (c :: c2 :: cs2) ++ ']' :: rest =
          encodeCert c ++ (',' :: ' ' :: (encodeCertsAux (c2 :: cs2) ++ ']' :: rest)) := by
        simp [encodeCertsAux, List.append_assoc]
      rw [hshape]
      unfold parseCertsLoop
      rw [parseCert_round]
      show (match parseCertsLoop f (encodeCertsAux (c2 :: cs2) ++ ']' :: rest) with
        | none => none
        | some (cs, r3) => some (c :: cs, r3)) = some (c :: c2 :: cs2, rest)
      rw [ih c2 f rest (by simp at h ⊢; omega)]

/-- Decoding inverts encoding on every certification list. -/
theorem decodeCerts_encodeCerts (L : List Cert) : decodeCerts (encodeCerts L) = some L := by
  cases L with
  | nil => rfl
  | cons c cs =>
    obtain ⟨t, ht⟩ := encodeCertsAux_cons c cs
    have hdata : (encodeCerts (c :: cs)).data = '[' :: '\x7b' :: (t ++ [']']) := by
      simp [encodeCerts, ht]
    have hred : decodeCerts (encodeCerts (c :: cs)) =
        (match parseCertsLoop (('\x7b' :: (t ++ [']'])).length + 1) ('\x7b' :: (t ++ [']'])) with
         | none => none
         | some (cs2, r2) => if r2.isEmpty then some cs2 else none) := by
      unfold decodeCerts
      rw [hdata]
      rfl
    rw [hred]
    have hlist : '\x7b' :: (t ++ [']']) = encodeCertsAux (c :: cs) ++ ']' :: ([] : List Char) := by
      rw [ht]
      simp
    rw [hlist]
    rw [parseCertsLoop_round cs c ((encodeCertsAux (c :: cs) ++ ']' :: ([] : List Char)).length + 1) []
      (by
        have h1 := encodeCertsAux_length (c :: cs)
        simp only [List.length_cons, List.length_append] at h1 ⊢
        omega)]
    rfl

/-- The encoder never returns the empty (falsy) string. -/
theorem encodeCerts_ne_empty (L : List Cert) : encodeCerts L ≠ "" := by
  intro h
  have hd := congrArg String.data h
  simp [encodeCerts] at hd

/-! ## Claim C2 and C3: codec laws -/

/-- Claim C2: for every well-formed certification list L (a list of
name/issuer/date records), decoding the string produced by encoding L
through the `certifications` property yields L exactly. -/
theorem c2_certifications_roundtrip (L : List Cert) :
    certificationsGet (some (certificationsSet L)) = L := by
  unfold certificationsGet certificationsSet
  dsimp only
  rw [if_neg (encodeCerts_ne_empty L), decodeCerts_encodeCerts]

/-- Claim C3: for every raw certifications value that is absent (`None`
or the empty string) or malformed (the decoder fails on it), the
`certifications` property returns the empty list; being a total
function, it never raises. -/
theorem c3_certifications_fail_safe (raw : Option String)
    (h : raw = none ∨ raw = some "" ∨ decodeCerts (raw.getD "") = none) :
    certificationsGet raw = [] := by
  rcases h with h | h | h
  · subst h
    rfl
  · subst h
    rfl
  · cases raw with
    | none => rfl
    | some s =>
      unfold certificationsGet
      dsimp only
      by_cases hs : s = ""
      · rw [if_pos hs]
      · rw [if_neg hs]
        rw [Option.getD_some] at h
        rw [h]

/-- Witness for C3 at a concrete malformed input. -/
theorem c3_certifications_fail_safe_witness :
    certificationsGet (some "not json") = [] :=
  c3_certifications_fail_safe (some "not json") (Or.inr (Or.inr (by decide)))

/-! ## Claim C1: certification rows persisted from the profile form -/

/-- A filterMap over an if-then-some-else-none function is a filter
followed by a map. -/
theorem filterMap_ite_eq_filter_map {α β : Type} (l : List α) (p : α → Prop)
    [DecidablePred p] (g : α → β) :
    l.filterMap (fun a => if p a then some (g a) else none) =
      (l.filter (fun a => decide (p a))).map g := by
  induction l with
  | nil => rfl
  | cons a as ih =>
    by_cases h : p a
    · simp [List.filterMap_cons, List.filter_cons, h, ih]
    · simp [List.filterMap_cons, List.filter_cons, h, ih]

/-- The loop of the profile route builds exactly the rows the
specification describes. -/
theorem buildNewCerts_eq_claimCertRows (names issuers dates : List String) :
    buildNewCerts names issuers dates = claimCertRows names issuers dates := by
  unfold buildNewCerts claimCertRows
  exact filterMap_ite_eq_filter_map (List.range names.length)
    (fun i => (names.getD i "").trim ≠ "")
    (fun i => (⟨names.getD i "",
               if i < issuers.length then issuers.getD i "" else "",
               if i < dates.length then dates.getD i "" else ""⟩ : Cert))

/-- Claim C1: for every triple of parallel form sequences, the persisted
(encoded, then reloaded through the property) certification list equals,
in original order, the records at exactly the indices whose name is
non-empty after trimming, with missing issuer/date entries read as empty
strings; rows with whitespace-only names are dropped, shorter
issuer/date sequences raise no error, and no deduplication occurs (the
equality preserves duplicates as-is). -/
theorem c1_persisted_cert_rows (cert_names cert_issuers cert_dates : List String) :
    certificationsGet (some (certificationsSet
        (buildNewCerts cert_names cert_issuers cert_dates))) =
      claimCertRows cert_names cert_issuers cert_dates := by
  unfold certificationsGet certificationsSet
  dsimp only
  rw [if_neg (encodeCerts_ne_empty _), decodeCerts_encodeCerts]
  exact buildNewCerts_eq_claimCertRows cert_names cert_issuers cert_dates

/-! ## Claim C4: upload gatekeeper -/

/-- A found index points at an occurrence inside the list. -/
theorem rfindIdx_mem (c : Char) (l : List Char) (d : Nat)
    (h : rfindIdx c l = some d) : c ∈ l := by
  induction l generalizing d with
  | nil => simp [rfindIdx] at h
  | cons a as ih =>
    unfold rfindIdx at h
    cases hr : rfindIdx c as with
    | some i => exact List.mem_cons_of_mem a (ih i hr)
    | none =>
      rw [hr] at h
      by_cases ha : a = c
      · exact ha ▸ List.mem_cons_self a as
      · rw [if_neg ha] at h
        cases h

/-- When no index is found, the character does not occur. -/
theorem rfindIdx_none (c : Char) (l : List Char)
    (h : rfindIdx c l = none) : c ∉ l := by
  induction l with
  | nil => simp
  | cons a as ih =>
    unfold rfindIdx at h
    cases hr : rfindIdx c as with
    | some i => rw [hr] at h; cases h
    | none =>
      rw [hr] at h
      by_cases ha : a = c
      · rw [if_pos ha] at h; cases h
      · simp [List.mem_cons, ih hr]
        intro hc
        exact ha hc.symm

/-- Taking while distinct from a character ignores anything appended
after an occurrence of that character. -/
theorem takeWhile_ne_append_of_mem (c : Char) (l t : List Char) (h : c ∈ l) :
    (l ++ t).takeWhile (fun x => x ≠ c) = l.takeWhile (fun x => x ≠ c) := by
  induction l with
  | nil => cases h
  | cons a as ih =>
    by_cases ha : a = c
    · rw [List.cons_append,
        List.takeWhile_cons_of_neg (by simp [ha]),
        List.takeWhile_cons_of_neg (by simp [ha])]
    · have has : c ∈ as := by
        rcases List.mem_cons.mp h with h1 | h1
        · exact absurd h1.symm ha
        · exact h1
      rw [List.cons_append,
        List.takeWhile_cons_of_pos (by simp [ha]),
        List.takeWhile_cons_of_pos (by simp [ha]), ih has]

/-- Taking while distinct from a character keeps a whole list free of it. -/
theorem takeWhile_ne_append_self (c : Char) (l : List Char) (h : c ∉ l) :
    (l ++ [c]).takeWhile (fun x => x ≠ c) = l := by
  induction l with
  | nil => rw [List.nil_append, List.takeWhile_cons_of_neg (by simp)]
  | cons a as ih =>
    have ha : a ≠ c := by
      intro hac
      exact h (hac ▸ List.mem_cons_self a as)
    have has : c ∉ as := fun hc => h (List.mem_cons_of_mem a hc)
    rw [List.cons_append, List.takeWhile_cons_of_pos (by simp [ha]), ih has]

/-- Dropping at the last-dot index exposes the dot followed by the
after-last-dot suffix. -/
theorem rfindIdx_drop (l : List Char) (d : Nat) (h : rfindIdx '.' l = some d) :
    l.drop d = '.' :: afterLastDot l := by
  induction l generalizing d with
  | nil => simp [rfindIdx] at h
  | cons a as ih =>
    unfold rfindIdx at h
    cases hr : rfindIdx '.' as with
    | some i =>
      rw [hr] at h
      injection h with hd
      subst hd
      have hmem : '.' ∈ as := rfindIdx_mem '.' as i hr
      have : afterLastDot (a :: as) = afterLastDot as := by
        unfold afterLastDot
        rw [List.reverse_cons, takeWhile_ne_append_of_mem '.' as.reverse [a]
          (List.mem_reverse.mpr hmem)]
      rw [List.drop_succ_cons, ih i hr, this]
    | none =>
      rw [hr] at h
      by_cases ha : a = '.'
      · rw [if_pos ha] at h
        injection h with hd
        subst hd
        have hnot : '.' ∉ as := rfindIdx_none '.' as hr
        have hafter : afterLastDot (a :: as) = as := by
          unfold afterLastDot
          rw [List.reverse_cons, ha, takeWhile_ne_append_self '.' as.reverse
            (by simpa using hnot), List.reverse_reverse]
        rw [List.drop_zero, hafter, ha]
      · rw [if_neg ha] at h
        cases h

/-- With a proper stem, the extension split off is the dot plus the
characters after the last dot, exactly the text the acceptance check
inspects. -/
theorem splitext_ext_of_stem (p : String) (h : hasStem p = true) :
    (splitext p).2 = "." ++ String.mk (afterLastDot p.data) := by
  unfold hasStem at h
  cases hr : rfindIdx '.' p.data with
  | none =>
    rw [hr] at h
    simp at h
  | some d =>
    rw [hr] at h
    dsimp only at h
    have hnotlt : ¬ d < extSearchStart p.data := by
      rcases List.any_eq_true.mp h with ⟨j, hj, hcond⟩
      simp only [Bool.and_eq_true, decide_eq_true_eq] at hcond
      have hjd := List.mem_range.mp hj
      omega
    unfold splitext
    rw [hr]
    dsimp only
    rw [if_neg hnotlt, if_pos h]
    dsimp only
    rw [rfindIdx_drop p.data d hr]
    rfl

/-- Without a proper stem (no dot at all, or only leading dots), the
extension split off is empty. -/
theorem splitext_ext_of_no_stem (p : String) (h : hasStem p = false) :
    (splitext p).2 = "" := by
  unfold hasStem at h
  cases hr : rfindIdx '.' p.data with
  | none =>
    unfold splitext
    rw [hr]
  | some d =>
    rw [hr] at h
    dsimp only at h
    unfold splitext
    rw [hr]
    dsimp only
    by_cases hlt : d < extSearchStart p.data
    · rw [if_pos hlt]
    · have hfalse : ¬ ((List.range d).any (fun j =>
          decide (extSearchStart p.data ≤ j) && decide (p.data.getD j '.' ≠ '.')) = true) := by
        rw [h]
        exact Bool.false_ne_true
      rw [if_neg hlt, if_neg hfalse]

/-- Claim C4 counterexample: the dotfile-style filename ".jpg" is
accepted by the gatekeeper, yet the stored name is the bare token: the
original extension is not appended, contradicting the claim as stated
(under the claim's own reading of "extension", the text after the last
dot). -/
theorem c4_upload_counterexample :
    allowed_file ".jpg" = true ∧
    save_picture "0123456789abcdef" ".jpg" = "0123456789abcdef" ∧
    "0123456789abcdef" ≠ "0123456789abcdef" ++ "." ++ String.mk (afterLastDot ".jpg".data) := by
  refine ⟨by decide, by decide, by decide⟩

/-- Claim C4 (amended): the gatekeeper accepts exactly the filenames
containing a dot whose lowercased text after the last dot is in the
allow-set; an accepted file is stored under the token with the
`os.path.splitext` extension appended, which is "." plus the original
extension whenever some character after the last path separator and
before the last dot is not itself a dot, and is empty (bare token) for
dotfile-style names such as ".jpg". -/
theorem c4_upload_gatekeeper_amended (filename tok : String) :
    (allowed_file filename = true ↔
      (filename.data.contains '.' = true ∧
       ALLOWED_EXTENSIONS.contains (lowerString (String.mk (afterLastDot filename.data))) = true)) ∧
    (hasStem filename = true →
      save_picture tok filename = tok ++ "." ++ String.mk (afterLastDot filename.data)) ∧
    (hasStem filename = false → save_picture tok filename = tok) := by
  refine ⟨?_, ?_, ?_⟩
  · unfold allowed_file
    rw [Bool.and_eq_true]
  · intro h
    unfold save_picture
    rw [splitext_ext_of_stem filename h, String.append_assoc]
  · intro h
    unfold save_picture
    rw [splitext_ext_of_no_stem filename h, String.append_empty]

/-- Witness for the amended C4 at a concrete accepted upload. -/
theorem c4_upload_gatekeeper_amended_witness :
    save_picture "0123456789abcdef" "photo.JPG" =
      "0123456789abcdef" ++ "." ++ String.mk (afterLastDot "photo.JPG".data) :=
  (c4_upload_gatekeeper_amended "photo.JPG" "0123456789abcdef").2.1 (by decide)

/-! ## Claims C5, C6, C7, C9, C10: routes -/

/-- Claim C5: when the project exists but is owned by a different
account, both edit and delete leave the table unchanged and report
access denied, an outcome distinct from not found. -/
theorem c5_ownership_enforced (db : List ProjectRec) (actorId pid : Nat) (p : ProjectRec)
    (newTitle newDesc : String) (file : Option String) (tok : String)
    (hfind : findProject db pid = some p) (hown : p.user_id ≠ actorId) :
    edit_project db actorId pid newTitle newDesc file tok = (Outcome.accessDenied, db) ∧
    delete_project db actorId pid = (Outcome.accessDenied, db) ∧
    Outcome.accessDenied ≠ Outcome.notFound := by
  refine ⟨?_, ?_, by decide⟩
  · unfold edit_project
    rw [hfind]
    dsimp only
    rw [if_pos hown]
  · unfold delete_project
    rw [hfind]
    dsimp only
    rw [if_pos hown]

/-- Witness for C5 on a one-row table owned by user 7, acted on by user 8. -/
theorem c5_ownership_enforced_witness :
    edit_project [⟨1, "t", "d", none, 7⟩] 8 1 "nt" "nd" none "tok" =
      (Outcome.accessDenied, [⟨1, "t", "d", none, 7⟩]) ∧
    delete_project [⟨1, "t", "d", none, 7⟩] 8 1 =
      (Outcome.accessDenied, [⟨1, "t", "d", none, 7⟩]) ∧
    Outcome.accessDenied ≠ Outcome.notFound :=
  c5_ownership_enforced [⟨1, "t", "d", none, 7⟩] 8 1 ⟨1, "t", "d", none, 7⟩
    "nt" "nd" none "tok" (by decide) (by decide)

/-- Claim C6: a registered email with a failing password check and an
unregistered email produce the identical generic failure message. -/
theorem c6_login_no_email_leak (check_password_hash : String → String → Bool)
    (db : List UserRec) (e1 p1 e2 p2 : String) (u : UserRec)
    (hreg : findByEmail db e1 = some u)
    (hwrong : check_password_hash u.password p1 = false)
    (hunk : findByEmail db e2 = none) :
    login check_password_hash db e1 p1 = LoginResult.failure "Invalid credentials." ∧
    login check_password_hash db e2 p2 = LoginResult.failure "Invalid credentials." := by
  constructor
  · unfold login
    rw [hreg]
    dsimp only
    rw [if_neg (by simp [hwrong])]
  · unfold login
    rw [hunk]

/-- Witness for C6 on a one-user table with an equality password check. -/
theorem c6_login_no_email_leak_witness :
    login (fun stored pw => stored == pw)
        [⟨1, some "alice", "a@b.c", "HASH", none, none, none, none, none, none, none, none,
          none, none, some "[]"⟩] "a@b.c" "wrong" =
      LoginResult.failure "Invalid credentials." ∧
    login (fun stored pw => stored == pw)
        [⟨1, some "alice", "a@b.c", "HASH", none, none, none, none, none, none, none, none,
          none, none, some "[]"⟩] "ghost@b.c" "pw" =
      LoginResult.failure "Invalid credentials." :=
  c6_login_no_email_leak (fun stored pw => stored == pw)
    [⟨1, some "alice", "a@b.c", "HASH", none, none, none, none, none, none, none, none,
      none, none, some "[]"⟩] "a@b.c" "wrong" "ghost@b.c" "pw"
    ⟨1, some "alice", "a@b.c", "HASH", none, none, none, none, none, none, none, none,
      none, none, some "[]"⟩ (by decide) (by decide) (by decide)

/-- Claim C7: an absent or empty new_password leaves the stored hash
untouched; a non-empty one stores exactly the hashing primitive's output
on it (never the plaintext itself, which only enters through the
primitive). -/
theorem c7_password_update (generate_password_hash : String → String)
    (u : UserRec) (f : ProfileForm) :
    ((f.new_password = none ∨ f.new_password = some "") →
      (profile_post generate_password_hash u f).password = u.password) ∧
    (∀ s, f.new_password = some s → s ≠ "" →
      (profile_post generate_password_hash u f).password = generate_password_hash s) := by
  constructor
  · intro h
    rcases h with h | h <;> simp [profile_post, h]
  · intro s hs hne
    simp [profile_post, hs, hne]

/-- Witness for C7: empty new_password leaves the hash, a fresh one is hashed. -/
theorem c7_password_update_witness :
    (profile_post (fun s => "H" ++ s)
        ⟨1, some "alice", "a@b.c", "OLDHASH", none, none, none, none, none, none, none, none,
          none, none, some "[]"⟩
        ⟨none, none, none, none, none, none, none, none, none, none, none, some "", [], [], []⟩).password =
      "OLDHASH" :=
  (c7_password_update (fun s => "H" ++ s)
    ⟨1, some "alice", "a@b.c", "OLDHASH", none, none, none, none, none, none, none, none,
      none, none, some "[]"⟩
    ⟨none, none, none, none, none, none, none, none, none, none, none, some "", [], [], []⟩).1
    (Or.inr rfl)

/-- Claim C9: when the uploaded image fails the extension check, the
project row is still created with the submitted title and description,
a null image reference, and no file is written. -/
theorem c9_rejected_image_still_creates (db : List ProjectRec) (nextId actorId : Nat)
    (title desc fn tok : String) (hrej : allowed_file fn = false) :
    projects_post db nextId actorId title desc fn tok =
      (db ++ [⟨nextId, title, desc, none, actorId⟩], []) := by
  unfold projects_post
  rw [if_neg (by simp [hrej])]

/-- Witness for C9 at the spec's example upload `malware.exe`. -/
theorem c9_rejected_image_still_creates_witness :
    projects_post [] 1 7 "My Project" "desc" "malware.exe" "0123456789abcdef" =
      ([⟨1, "My Project", "desc", none, 7⟩], []) :=
  c9_rejected_image_still_creates [] 1 7 "My Project" "desc" "malware.exe" "0123456789abcdef"
    (by decide)

/-- Claim C10: every field in the fixed set is overwritten with the
submitted form value (so an absent field is overwritten with null),
while id and email are left unchanged. -/
theorem c10_profile_overwrites (generate_password_hash : String → String)
    (u : UserRec) (f : ProfileForm) :
    (profile_post generate_password_hash u f).username = f.username ∧
    (profile_post generate_password_hash u f).tagline = f.tagline ∧
    (profile_post generate_password_hash u f).bio = f.bio ∧
    (profile_post generate_password_hash u f).avatar_url = f.avatar_url ∧
    (profile_post generate_password_hash u f).status = f.status ∧
    (profile_post generate_password_hash u f).course = f.course ∧
    (profile_post generate_password_hash u f).faction = f.faction ∧
    (profile_post generate_password_hash u f).skills = f.skills ∧
    (profile_post generate_password_hash u f).public_email = f.public_email ∧
    (profile_post generate_password_hash u f).linkedin = f.linkedin ∧
    (profile_post generate_password_hash u f).github = f.github ∧
    (profile_post generate_password_hash u f).id = u.id ∧
    (profile_post generate_password_hash u f).email = u.email := by
  cases hnp : f.new_password with
  | none => simp [profile_post, hnp]
  | some s => by_cases hs : s = "" <;> simp [profile_post, hnp, hs]

/-! ## Claim C8: PDF certification section -/

/-- The certifications heading occurs in the certification section
exactly when the list is non-empty. -/
theorem certHeading_mem_certSection (certs : List Cert) :
    Block.paragraph "Certifications" "Heading2" ∈ certSection certs ↔ certs ≠ [] := by
  unfold certSection
  cases certs with
  | nil => simp
  | cons c cs => simp

/-- No block of a project entry is the certifications heading. -/
theorem certHeading_not_mem_projectBlocks (p : ProjectRec) :
    Block.paragraph "Certifications" "Heading2" ∉ projectBlocks p := by
  unfold projectBlocks
  by_cases h : p.description ≠ "" <;> simp [h]

/-- No block of the projects section is the certifications heading. -/
theorem certHeading_not_mem_projects (ps : List ProjectRec) :
    Block.paragraph "Certifications" "Heading2" ∉ (ps.map projectBlocks).flatten := by
  induction ps with
  | nil => simp
  | cons p ps ih =>
    simp only [List.map_cons, List.flatten_cons, List.mem_append]
    rintro (h | h)
    · exact certHeading_not_mem_projectBlocks p h
    · exact ih h

/-- Claim C8 counterexample: the line assembled for the certification
named "AWS CCP" issued by "Amazon" in "2024" is the hyphen-separated
string, not the em-dash rendering the claim states, and no em dash
(U+2014) occurs anywhere in it. -/
theorem c8_certline_counterexample :
    certLine ⟨"AWS CCP", "Amazon", "2024"⟩ = "<b>AWS CCP</b> - Amazon (2024)" ∧
    certLine ⟨"AWS CCP", "Amazon", "2024"⟩ ≠
      "<b>AWS CCP</b>" ++ String.mk [' ', Char.ofNat 0x2014, ' '] ++ "Amazon (2024)" ∧
    Char.ofNat 0x2014 ∉ (certLine ⟨"AWS CCP", "Amazon", "2024"⟩).data := by
  refine ⟨by decide, by decide, by decide⟩

/-- Claim C8 (amended): the document contains the certifications heading
block iff the account's stored certification list is non-empty, and then
the section is the heading followed by one line per certification in
stored order, each rendered as `<b>name</b> - issuer (date)` with an
ASCII hyphen (issuer and date are always present in decoded records, so
the empty-string fallback of `dict.get` reads them verbatim); in
particular the AWS CCP example renders as `<b>AWS CCP</b> - Amazon (2024)`. -/
theorem c8_certifications_in_pdf (u : UserRec) (ps : List ProjectRec) :
    (Block.paragraph "Certifications" "Heading2" ∈ download_portfolio_elements u ps ↔
      certificationsGet u.certifications_data ≠ []) ∧
    (∀ certs : List Cert, certs ≠ [] →
      certSection certs = Block.paragraph "Certifications" "Heading2" ::
        certs.map (fun c => Block.paragraph (certLine c) "Normal") ++ [Block.spacer 1 20]) ∧
    certLine ⟨"AWS CCP", "Amazon", "2024"⟩ = "<b>AWS CCP</b> - Amazon (2024)" := by
  refine ⟨?_, ?_, by decide⟩
  · have hu := certHeading_mem_certSection (certificationsGet u.certifications_data)
    unfold download_portfolio_elements
    have h1 : Block.paragraph "Certifications" "Heading2" ∉
        [Block.paragraph (showOpt u.username ++ "\x27s Portfolio") "Title",
         Block.spacer 1 12] := by simp
    have h2 : Block.paragraph "Certifications" "Heading2" ∉
        (if truthyOpt u.course then
          [Block.paragraph ("<b>Course:</b> " ++ showOpt u.course) "Normal"] else []) := by
      split_ifs <;> simp
    have h3 : Block.paragraph "Certifications" "Heading2" ∉
        (if truthyOpt u.tagline then
          [Block.paragraph ("<i>" ++ showOpt u.tagline ++ "</i>") "Normal"] else []) := by
      split_ifs <;> simp
    have h4 : Block.paragraph "Certifications" "Heading2" ∉
        (if truthyOpt u.public_email then
          [Block.paragraph ("<b>Email:</b> " ++ showOpt u.public_email) "Normal"] else []) := by
      split_ifs <;> simp
    have h5 : Block.paragraph "Certifications" "Heading2" ∉ [Block.spacer 1 20] := by simp
    have h6 : Block.paragraph "Certifications" "Heading2" ∉
        [Block.paragraph "Projects" "Heading2"] := by simp
    have h7 := certHeading_not_mem_projects ps
    simp only [List.mem_append, h1, h2, h3, h4, h5, h6, h7, false_or, or_false]
    exact hu
  · intro certs hne
    unfold certSection
    rw [if_neg (by simpa using hne)]

/-- Witness for the amended C8 on a singleton certification list. -/
theorem c8_certifications_in_pdf_witness :
    certSection [⟨"AWS CCP", "Amazon", "2024"⟩] =
      Block.paragraph "Certifications" "Heading2" ::
        [Cert.mk "AWS CCP" "Amazon" "2024"].map
          (fun c => Block.paragraph (certLine c) "Normal") ++ [Block.spacer 1 20] :=
  (c8_certifications_in_pdf
      ⟨1, some "alice", "a@b.c", "HASH", none, none, none, none, none, none, none, none,
        none, none, some "[]"⟩ []).2.1
    [⟨"AWS CCP", "Amazon", "2024"⟩] (by decide)
